import Mathlib

/-!
Verification of the sermonsearch transcript pipeline.

Strings from the Python sources are embedded as `List Char`; the external
NLTK tokenizers (`word_tokenize`, `sent_tokenize`) and the NLTK stopword
list are collaborators, so functions that consume their output take the
token lists / stopword list as explicit arguments.  Python's `str.split()`
(whitespace split, empty pieces dropped) is embedded as `pySplit`.
-/

namespace SermonSearch

/-- A word is a run of characters, as produced by a tokenizer or by
whitespace splitting. -/
abbrev Word := List Char

/-- Model of the whitespace test used by Python's `str.split()` and
`str.strip()` (ASCII whitespace: space, tab, line feed, vertical tab,
form feed, carriage return). -/
def isSpaceChar (c : Char) : Bool :=
  c.toNat = 32 || c.toNat = 9 || c.toNat = 10 || c.toNat = 11 ||
  c.toNat = 12 || c.toNat = 13

/-- ASCII model of the character test behind Python's `str.isalnum()`. -/
def isAlnumChar (c : Char) : Bool :=
  (48 ≤ c.toNat && c.toNat ≤ 57) || (65 ≤ c.toNat && c.toNat ≤ 90) ||
  (97 ≤ c.toNat && c.toNat ≤ 122)

/-- `w.isalnum()` on a Python string: non-empty and all characters
alphanumeric. -/
def isAlnumWord (w : Word) : Bool :=
  !w.isEmpty && w.all isAlnumChar

theorem isAlnumChar_not_space {c : Char} (h : isAlnumChar c = true) :
    isSpaceChar c = false := by
  simp only [isAlnumChar, Bool.or_eq_true, Bool.and_eq_true,
    decide_eq_true_eq] at h
  simp only [isSpaceChar, Bool.or_eq_false_iff, decide_eq_false_iff_not]
  omega

/-- A word that survives whitespace splitting or tokenization: non-empty
and free of whitespace characters. -/
def goodWord (w : Word) : Prop :=
  w ≠ [] ∧ ∀ c ∈ w, isSpaceChar c = false

theorem goodWord_of_isAlnum {w : Word} (h : isAlnumWord w = true) :
    goodWord w := by
  simp only [isAlnumWord, Bool.and_eq_true, Bool.not_eq_true',
    List.all_eq_true] at h
  refine ⟨?_, fun c hc => isAlnumChar_not_space (h.2 c hc)⟩
  intro hnil
  rw [hnil] at h
  simp at h

/-- Left-to-right scanner behind `pySplit`: `cur` is the word being
accumulated (characters in order). -/
def splitAux : List Char → Word → List Word
  | [], cur => if cur = [] then [] else [cur]
  | c :: cs, cur =>
    if isSpaceChar c then
      if cur = [] then splitAux cs [] else cur :: splitAux cs []
    else splitAux cs (cur ++ [c])

/-- Python `str.split()` with no separator: split on runs of whitespace,
dropping empty pieces (`command_parser.py` line 92). -/
def pySplit (s : List Char) : List Word :=
  splitAux s []

/-- `" ".join(ws)` (`command_parser.py` lines 102, 107, 127). -/
def joinSpace : List Word → List Char
  | [] => []
  | [w] => w
  | w :: ws => w ++ ' ' :: joinSpace ws

theorem splitAux_words_ok (s : List Char) :
    ∀ cur, (∀ c ∈ cur, isSpaceChar c = false) →
    ∀ w ∈ splitAux s cur, goodWord w := by
  induction s with
  | nil =>
      intro cur hcur w hw
      by_cases h : cur = []
      · simp [splitAux, h] at hw
      · rw [splitAux, if_neg h] at hw
        rcases List.mem_singleton.1 hw with rfl
        exact ⟨h, hcur⟩
  | cons c cs ih =>
      intro cur hcur w hw
      rw [splitAux] at hw
      by_cases hsp : isSpaceChar c = true
      · rw [if_pos hsp] at hw
        by_cases h : cur = []
        · rw [if_pos h] at hw
          exact ih [] (by simp) w hw
        · rw [if_neg h] at hw
          rcases List.mem_cons.1 hw with rfl | hw
          · exact ⟨h, hcur⟩
          · exact ih [] (by simp) w hw
      · rw [if_neg hsp] at hw
        refine ih (cur ++ [c]) ?_ w hw
        intro d hd
        rcases List.mem_append.1 hd with hd | hd
        · exact hcur d hd
        · rcases List.mem_singleton.1 hd with rfl
          exact Bool.of_not_eq_true hsp

/-- Every word produced by `pySplit` is non-empty and whitespace-free. -/
theorem pySplit_words_ok (s : List Char) :
    ∀ w ∈ pySplit s, goodWord w :=
  splitAux_words_ok s [] (by simp)

theorem splitAux_no_space (s : List Char)
    (hs : ∀ c ∈ s, isSpaceChar c = false) :
    ∀ cur, splitAux s cur =
      if cur ++ s = [] then [] else [cur ++ s] := by
  induction s with
  | nil => intro cur; simp [splitAux]
  | cons c cs ih =>
      intro cur
      rw [splitAux, if_neg (by simp [hs c (List.mem_cons_self c cs)])]
      rw [ih (fun d hd => hs d (List.mem_cons_of_mem c hd)) (cur ++ [c])]
      simp

theorem splitAux_append_word {w : Word}
    (hw : ∀ c ∈ w, isSpaceChar c = false) (r : List Char) :
    ∀ cur, splitAux (w ++ r) cur = splitAux r (cur ++ w) := by
  induction w with
  | nil => intro cur; simp
  | cons a w ih =>
      intro cur
      rw [List.cons_append, splitAux,
        if_neg (by simp [hw a (List.mem_cons_self a w)])]
      rw [ih (fun d hd => hw d (List.mem_cons_of_mem a hd)) (cur ++ [a])]
      simp

/-- Round trip: whitespace-splitting a space-join of good words recovers
exactly those words. -/
theorem pySplit_joinSpace {ws : List Word} (h : ∀ w ∈ ws, goodWord w) :
    pySplit (joinSpace ws) = ws := by
  induction ws with
  | nil => simp [pySplit, joinSpace, splitAux]
  | cons w ws ih =>
      cases ws with
      | nil =>
          have hw := h w (List.mem_cons_self w [])
          show splitAux (joinSpace [w]) [] = [w]
          rw [joinSpace, splitAux_no_space w hw.2 []]
          simp [hw.1]
      | cons v vs =>
          have hw := h w (List.mem_cons_self w (v :: vs))
          show splitAux (w ++ ' ' :: joinSpace (v :: vs)) [] = w :: v :: vs
          rw [splitAux_append_word hw.2 _ [], List.nil_append, splitAux,
            if_pos (by decide), if_neg hw.1]
          exact congrArg (w :: ·) (ih fun u hu => h u (List.mem_cons_of_mem w hu))

/-- The word-accumulation loop of `CommandParser.extract_time_segments`
(`command_parser.py` lines 97-107): `cur` is `current_segment`, `k` is
`word_count`; a segment is emitted as soon as `k` reaches
`segment_length`, and a non-empty remainder is flushed at the end.  The
chunks are returned as word lists; joining is applied afterwards. -/
def segChunks (n : Nat) : List Word → List Word → Nat → List (List Word)
  | [], cur, _ => if cur = [] then [] else [cur]
  | w :: ws, cur, k =>
    if n ≤ k + 1 then (cur ++ [w]) :: segChunks n ws [] 0
    else segChunks n ws (cur ++ [w]) (k + 1)

/-- `CommandParser.extract_time_segments` (`command_parser.py` lines
89-109): split the transcript on whitespace, chunk greedily into runs of
`segment_length` words, and join each chunk with single spaces. -/
def extract_time_segments (transcript_text : List Char) (segment_length : Nat) :
    List (List Char) :=
  (segChunks segment_length (pySplit transcript_text) [] 0).map joinSpace

theorem segChunks_join (n : Nat) (ws : List Word) :
    ∀ cur k, (segChunks n ws cur k).join = cur ++ ws := by
  induction ws with
  | nil =>
      intro cur k
      by_cases h : cur = [] <;> simp [segChunks, h]
  | cons w ws ih =>
      intro cur k
      rw [segChunks]
      by_cases h : n ≤ k + 1
      · rw [if_pos h]
        simp [ih [] 0]
      · rw [if_neg h, ih (cur ++ [w]) (k + 1)]
        simp

theorem segChunks_dropLast_length (n : Nat) (ws : List Word) :
    ∀ cur k, cur.length < n → k = cur.length →
    ∀ ch ∈ (segChunks n ws cur k).dropLast, ch.length = n := by
  induction ws with
  | nil =>
      intro cur k _ _ ch hch
      by_cases h : cur = [] <;> simp [segChunks, h] at hch
  | cons w ws ih =>
      intro cur k hlt hk ch hch
      rw [segChunks] at hch
      by_cases h : n ≤ k + 1
      · rw [if_pos h] at hch
        have hn : cur.length + 1 = n := by omega
        cases hrest : segChunks n ws [] 0 with
        | nil => rw [hrest] at hch; simp at hch
        | cons r rs =>
            rw [hrest, List.dropLast_cons₂] at hch
            rcases List.mem_cons.1 hch with rfl | hch
            · simp [hn]
            · have := ih [] 0 (by simp only [List.length_nil]; omega) rfl
              rw [hrest] at this
              exact this ch hch
      · rw [if_neg h] at hch
        exact ih (cur ++ [w]) (k + 1)
          (by simp only [List.length_append, List.length_cons, List.length_nil]; omega)
          (by simp [hk]) ch hch

theorem map_dropLast {α β : Type} (f : α → β) (l : List α) :
    (l.map f).dropLast = l.dropLast.map f := by
  induction l with
  | nil => rfl
  | cons a l ih =>
      cases l with
      | nil => rfl
      | cons b l => simp [List.dropLast_cons₂, ih]

theorem segChunks_words_good (n : Nat) (t : List Char) :
    ∀ ch ∈ segChunks n (pySplit t) [] 0, ∀ w ∈ ch, goodWord w := by
  intro ch hch w hw
  have hj : w ∈ (segChunks n (pySplit t) [] 0).join :=
    List.mem_join.2 ⟨ch, hch, hw⟩
  rw [segChunks_join, List.nil_append] at hj
  exact pySplit_words_ok t w hj

/-- C2: for `segment_length ≥ 1`, segmentation is exhaustive and
order-preserving — concatenating the whitespace-split tokens of all
returned segments, in order, yields the whitespace-split token list of
the transcript — and every segment except possibly the last contains
exactly `segment_length` words. -/
theorem claim2_extract_time_segments (t : List Char) (n : Nat) (h : 1 ≤ n) :
    ((extract_time_segments t n).map pySplit).join = pySplit t ∧
    ∀ seg ∈ (extract_time_segments t n).dropLast, (pySplit seg).length = n := by
  unfold extract_time_segments
  have hgood := segChunks_words_good n t
  have hmap : (segChunks n (pySplit t) [] 0).map (pySplit ∘ joinSpace) =
      segChunks n (pySplit t) [] 0 := by
    conv_rhs => rw [← List.map_id (segChunks n (pySplit t) [] 0)]
    apply List.map_congr_left
    intro ch hch
    simp only [Function.comp_apply, id_eq]
    exact pySplit_joinSpace (hgood ch hch)
  constructor
  · rw [List.map_map, hmap, segChunks_join, List.nil_append]
  · intro seg hseg
    rw [map_dropLast] at hseg
    rcases List.mem_map.1 hseg with ⟨ch, hch, rfl⟩
    have hchm : ch ∈ segChunks n (pySplit t) [] 0 :=
      (List.dropLast_sublist _).mem hch
    rw [pySplit_joinSpace (hgood ch hchm)]
    exact segChunks_dropLast_length n (pySplit t) [] 0
      (by simp only [List.length_nil]; omega) rfl ch hch

/-- Witness for C2 at a concrete transcript and segment length 2. -/
theorem claim2_witness :
    1 ≤ 2 ∧
    (((extract_time_segments ("alpha beta gamma delta epsilon".toList) 2).map
        pySplit).join = pySplit ("alpha beta gamma delta epsilon".toList) ∧
      ∀ seg ∈ (extract_time_segments ("alpha beta gamma delta epsilon".toList) 2).dropLast,
        (pySplit seg).length = 2) :=
  ⟨by decide, claim2_extract_time_segments _ 2 (by decide)⟩

/-- First-encounter-ordered keys of a list, modelling the key order of a
Python `collections.Counter` built from that list. -/
def keysIn {α : Type} [DecidableEq α] : List α → List α
  | [] => []
  | x :: xs => x :: (keysIn xs).filter (fun y => y ≠ x)

/-- `collections.Counter(l)` as an association list in first-encounter
key order. -/
def counter {α : Type} [DecidableEq α] (l : List α) : List (α × Nat) :=
  (keysIn l).map (fun k => (k, l.count k))

/-- Stable insertion of a pair into a count-descending list: the new pair
goes after existing pairs with an equal or larger count. -/
def insertDesc {α : Type} (p : α × Nat) : List (α × Nat) → List (α × Nat)
  | [] => [p]
  | q :: qs => if p.2 ≤ q.2 then q :: insertDesc p qs else p :: q :: qs

/-- Stable sort by count, descending. -/
def sortDesc {α : Type} : List (α × Nat) → List (α × Nat)
  | [] => []
  | p :: ps => insertDesc p (sortDesc ps)

/-- `Counter.most_common(n)`: the `n` pairs with the largest counts, in
descending count order, ties in first-encounter order. -/
def most_common {α : Type} (n : Nat) (l : List (α × Nat)) : List (α × Nat) :=
  (sortDesc l).take n

theorem mem_keysIn {α : Type} [DecidableEq α] {x : α} :
    ∀ {l : List α}, x ∈ keysIn l → x ∈ l := by
  intro l
  induction l with
  | nil => intro h; simp [keysIn] at h
  | cons a l ih =>
      intro h
      rw [keysIn] at h
      rcases List.mem_cons.1 h with rfl | h
      · exact List.mem_cons_self _ _
      · exact List.mem_cons_of_mem a (ih (List.mem_of_mem_filter h))

theorem counter_fst_mem {α : Type} [DecidableEq α] {l : List α}
    {p : α × Nat} (h : p ∈ counter l) : p.1 ∈ l := by
  rcases List.mem_map.1 h with ⟨k, hk, rfl⟩
  exact mem_keysIn hk

theorem mem_insertDesc {α : Type} {p a : α × Nat} :
    ∀ {l : List (α × Nat)}, a ∈ insertDesc p l → a = p ∨ a ∈ l := by
  intro l
  induction l with
  | nil => intro h; simp [insertDesc] at h; exact Or.inl h
  | cons q qs ih =>
      intro h
      rw [insertDesc] at h
      by_cases hc : p.2 ≤ q.2
      · rw [if_pos hc] at h
        rcases List.mem_cons.1 h with rfl | h
        · exact Or.inr (List.mem_cons_self _ _)
        · rcases ih h with h | h
          · exact Or.inl h
          · exact Or.inr (List.mem_cons_of_mem q h)
      · rw [if_neg hc] at h
        rcases List.mem_cons.1 h with rfl | h
        · exact Or.inl rfl
        · exact Or.inr h

theorem mem_sortDesc {α : Type} {a : α × Nat} :
    ∀ {l : List (α × Nat)}, a ∈ sortDesc l → a ∈ l := by
  intro l
  induction l with
  | nil => intro h; simp [sortDesc] at h
  | cons p ps ih =>
      intro h
      rw [sortDesc] at h
      rcases mem_insertDesc h with rfl | h
      · exact List.mem_cons_self _ _
      · exact List.mem_cons_of_mem p (ih h)

theorem mem_most_common {α : Type} {n : Nat} {l : List (α × Nat)}
    {a : α × Nat} (h : a ∈ most_common n l) : a ∈ l :=
  mem_sortDesc (List.mem_of_mem_take h)

/-- Counts are non-increasing along the list. -/
def CountsDesc {α : Type} (l : List (α × Nat)) : Prop :=
  l.Pairwise (fun a b => b.2 ≤ a.2)

theorem insertDesc_countsDesc {α : Type} {p : α × Nat}
    {l : List (α × Nat)} (h : CountsDesc l) :
    CountsDesc (insertDesc p l) := by
  induction l with
  | nil => simp [insertDesc, CountsDesc]
  | cons q qs ih =>
      simp only [CountsDesc, List.pairwise_cons] at h
      rw [insertDesc]
      by_cases hc : p.2 ≤ q.2
      · rw [if_pos hc]
        simp only [CountsDesc, List.pairwise_cons]
        refine ⟨?_, ih h.2⟩
        intro a ha
        rcases mem_insertDesc ha with rfl | ha
        · exact hc
        · exact h.1 a ha
      · rw [if_neg hc]
        simp only [CountsDesc, List.pairwise_cons]
        refine ⟨?_, ?_⟩
        · intro a ha
          rcases List.mem_cons.1 ha with rfl | ha
          · omega
          · have := h.1 a ha
            omega
        · exact ⟨h.1, h.2⟩

theorem sortDesc_countsDesc {α : Type} (l : List (α × Nat)) :
    CountsDesc (sortDesc l) := by
  induction l with
  | nil => simp [sortDesc, CountsDesc]
  | cons p ps ih => exact insertDesc_countsDesc ih

theorem most_common_countsDesc {α : Type} (n : Nat) (l : List (α × Nat)) :
    CountsDesc (most_common n l) :=
  List.Pairwise.sublist (List.take_sublist n (sortDesc l)) (sortDesc_countsDesc l)

/-- `CommandParser.extract_keywords` (`command_parser.py` lines 70-78)
after the external `word_tokenize(text.lower())` call: `tokens` is the
tokenizer output and `stop_words` the NLTK stopword list.  Tokens that
are alphanumeric, not stopwords and at least `min_length` characters long
are counted, and the `top_n` most common are returned. -/
def extract_keywords (stop_words tokens : List Word)
    (top_n : Nat) (min_length : Nat) : List (Word × Nat) :=
  most_common top_n
    (counter (tokens.filter (fun w =>
      isAlnumWord w && !(stop_words.contains w) && min_length ≤ w.length)))

/-- C7: `extract_keywords` returns at most `top_n` pairs, and the counts
in the returned list are non-increasing in order. -/
theorem claim7_extract_keywords (stop_words tokens : List Word)
    (top_n min_length : Nat) :
    (extract_keywords stop_words tokens top_n min_length).length ≤ top_n ∧
    CountsDesc (extract_keywords stop_words tokens top_n min_length) := by
  constructor
  · exact List.length_take_le top_n _
  · exact most_common_countsDesc top_n _

/-- The inner loop of `CommandParser.find_key_phrases`
(`command_parser.py` lines 118-131) over the word-tokenized words of one
sentence: `cur` is `current_phrase`; a run is emitted (joined with
spaces) when it is broken by a non-alphanumeric or stopword token and its
length is within bounds, and a trailing run is flushed at sentence end
under the same constraint. -/
def phraseRuns (stop_words : List Word) (lo hi : Nat) :
    List Word → List Word → List Word
  | [], cur =>
      if lo ≤ cur.length ∧ cur.length ≤ hi then [joinSpace cur] else []
  | w :: ws, cur =>
      if isAlnumWord w && !(stop_words.contains (w.map Char.toLower)) then
        phraseRuns stop_words lo hi ws (cur ++ [w])
      else
        if lo ≤ cur.length ∧ cur.length ≤ hi then
          joinSpace cur :: phraseRuns stop_words lo hi ws []
        else
          phraseRuns stop_words lo hi ws []

/-- `CommandParser.find_key_phrases` (`command_parser.py` lines 111-133)
after the external `sent_tokenize` / `word_tokenize` calls: `sentences`
is the list of word-tokenized sentences.  Candidate phrases from all
sentences are counted and the 10 most common are returned. -/
def find_key_phrases (stop_words : List Word) (sentences : List (List Word))
    (min_words max_words : Nat) : List (Word × Nat) :=
  most_common 10
    (counter ((sentences.map
      (fun ws => phraseRuns stop_words min_words max_words ws [])).join))

theorem phraseRuns_bounds (stop_words : List Word) (lo hi : Nat)
    (ws : List Word) :
    ∀ cur, (∀ w ∈ cur, goodWord w) →
    ∀ p ∈ phraseRuns stop_words lo hi ws cur,
      lo ≤ (pySplit p).length ∧ (pySplit p).length ≤ hi := by
  induction ws with
  | nil =>
      intro cur hcur p hp
      rw [phraseRuns] at hp
      by_cases h : lo ≤ cur.length ∧ cur.length ≤ hi
      · rw [if_pos h] at hp
        rcases List.mem_singleton.1 hp with rfl
        rw [pySplit_joinSpace hcur]
        exact h
      · rw [if_neg h] at hp
        simp at hp
  | cons w ws ih =>
      intro cur hcur p hp
      rw [phraseRuns] at hp
      by_cases hw : (isAlnumWord w &&
          !(stop_words.contains (w.map Char.toLower))) = true
      · rw [if_pos hw] at hp
        refine ih (cur ++ [w]) ?_ p hp
        intro u hu
        rcases List.mem_append.1 hu with hu | hu
        · exact hcur u hu
        · rcases List.mem_singleton.1 hu with rfl
          exact goodWord_of_isAlnum (Bool.and_elim_left hw)
      · rw [if_neg hw] at hp
        by_cases h : lo ≤ cur.length ∧ cur.length ≤ hi
        · rw [if_pos h] at hp
          rcases List.mem_cons.1 hp with rfl | hp
          · rw [pySplit_joinSpace hcur]; exact h
          · exact ih [] (by simp) p hp
        · rw [if_neg h] at hp
          exact ih [] (by simp) p hp

/-- C8: for `min_words ≤ max_words`, every phrase returned by
`find_key_phrases` has a word count within `[min_words, max_words]`
inclusive, including phrases produced by flushing a trailing run at
sentence end. -/
theorem claim8_find_key_phrases (stop_words : List Word)
    (sentences : List (List Word)) (min_words max_words : Nat)
    (h : min_words ≤ max_words) :
    ∀ p ∈ find_key_phrases stop_words sentences min_words max_words,
      min_words ≤ (pySplit p.1).length ∧ (pySplit p.1).length ≤ max_words := by
  intro p hp
  have hmem : p.1 ∈ (sentences.map
      (fun ws => phraseRuns stop_words min_words max_words ws [])).join :=
    counter_fst_mem (mem_most_common hp)
  rcases List.mem_join.1 hmem with ⟨run, hrun, hpr⟩
  rcases List.mem_map.1 hrun with ⟨ws, _, rfl⟩
  exact phraseRuns_bounds stop_words min_words max_words ws [] (by simp) p.1 hpr

/-- Witness for C8 at a concrete tokenized sentence and bounds `[1, 3]`. -/
theorem claim8_witness :
    1 ≤ 3 ∧
    ∀ p ∈ find_key_phrases []
        [["grace".toList, "saves".toList, "sinners".toList]] 1 3,
      1 ≤ (pySplit p.1).length ∧ (pySplit p.1).length ≤ 3 :=
  ⟨by decide, claim8_find_key_phrases [] _ 1 3 (by decide)⟩

/-- Character class `[0-9A-Za-z_-]` of the video-ID patterns
(`transcript_processor.py` lines 71-75). -/
def idChar (c : Char) : Bool :=
  isAlnumChar c || c = '_' || c = '-'

/-- Try to read exactly 11 id-class characters at the current position
(the capture group `([0-9A-Za-z_-]{11})`). -/
def grab11 (cs : List Char) : Option Word :=
  if (cs.take 11).length = 11 && (cs.take 11).all idChar then
    some (cs.take 11)
  else none

/-- Does `s` start with the literal `pat`? -/
def startsWithL : List Char → List Char → Bool
  | _, [] => true
  | [], _ :: _ => false
  | a :: s, b :: pat => a = b && startsWithL s pat

/-- `re.search` of the first pattern `(?:v=|\/)([0-9A-Za-z_-]{11}).*`
(`transcript_processor.py` line 72): scan left to right; at each
position try the literal `v=`, then `/`, each followed by 11 id
characters (the trailing `.*` always matches); on failure advance one
character. -/
def searchP1 : List Char → Option Word
  | [] => none
  | c :: rest =>
    (if startsWithL (c :: rest) ['v', '='] then grab11 rest.tail else none).orElse
      fun _ =>
        (if c = '/' then grab11 rest else none).orElse
          fun _ => searchP1 rest

/-- `re.search` of a pattern `(?:LIT)([0-9A-Za-z_-]{11})` for a literal
`LIT` (patterns 2 and 3, `transcript_processor.py` lines 73-74). -/
def searchLit (pat : List Char) : List Char → Option Word
  | [] => none
  | c :: rest =>
    (if startsWithL (c :: rest) pat then
        grab11 ((c :: rest).drop pat.length)
      else none).orElse
      fun _ => searchLit pat rest

/-- `TranscriptProcessor.extract_video_id` (`transcript_processor.py`
lines 67-81): try the three prioritized patterns in order; return the
first captured group, or fail with `ValueError("Invalid YouTube URL")`
(the spec's `InvalidURLError`). -/
def extract_video_id (url : List Char) : Except String Word :=
  match searchP1 url with
  | some w => Except.ok w
  | none =>
    match searchLit ("embed/".toList) url with
    | some w => Except.ok w
    | none =>
      match searchLit ("youtu.be/".toList) url with
      | some w => Except.ok w
      | none => Except.error "Invalid YouTube URL"

theorem grab11_ok {cs : List Char} {w : Word} (h : grab11 cs = some w) :
    w.length = 11 ∧ w.all idChar = true := by
  unfold grab11 at h
  by_cases hc : ((cs.take 11).length = 11 && (cs.take 11).all idChar) = true
  · rw [if_pos hc] at h
    rcases Option.some.inj h with rfl
    simpa using hc
  · rw [if_neg hc] at h
    exact absurd h (by simp)

theorem searchP1_ok {url : List Char} {w : Word}
    (h : searchP1 url = some w) : w.length = 11 ∧ w.all idChar = true := by
  induction url with
  | nil => simp [searchP1] at h
  | cons c rest ih =>
      rw [searchP1] at h
      rcases hx : (if startsWithL (c :: rest) ['v', '='] then
          grab11 rest.tail else none) with _ | u
      · rw [hx] at h
        replace h : ((if c = '/' then grab11 rest else none).orElse
            fun _ => searchP1 rest) = some w := h
        rcases hy : (if c = '/' then grab11 rest else none) with _ | v
        · rw [hy] at h
          replace h : searchP1 rest = some w := h
          exact ih h
        · rw [hy] at h
          replace h : some v = some w := h
          rcases Option.some.inj h with rfl
          by_cases hc : c = '/'
          · rw [if_pos hc] at hy; exact grab11_ok hy
          · rw [if_neg hc] at hy; exact absurd hy (by simp)
      · rw [hx] at h
        replace h : some u = some w := h
        rcases Option.some.inj h with rfl
        by_cases hc : startsWithL (c :: rest) ['v', '='] = true
        · rw [if_pos hc] at hx; exact grab11_ok hx
        · rw [if_neg hc] at hx; exact absurd hx (by simp)

theorem searchLit_ok {pat url : List Char} {w : Word}
    (h : searchLit pat url = some w) :
    w.length = 11 ∧ w.all idChar = true := by
  induction url with
  | nil => simp [searchLit] at h
  | cons c rest ih =>
      rw [searchLit] at h
      rcases hx : (if startsWithL (c :: rest) pat then
          grab11 ((c :: rest).drop pat.length) else none) with _ | u
      · rw [hx] at h
        replace h : searchLit pat rest = some w := h
        exact ih h
      · rw [hx] at h
        replace h : some u = some w := h
        rcases Option.some.inj h with rfl
        by_cases hc : startsWithL (c :: rest) pat = true
        · rw [if_pos hc] at hx; exact grab11_ok hx
        · rw [if_neg hc] at hx; exact absurd hx (by simp)

/-- C9: for every URL the extractor either returns an 11-character ID in
the pattern character class or fails with the invalid-URL error, and on
`https://www.youtube.com/watch?v=dQw4w9WgXcQ&t=5s` it returns
`dQw4w9WgXcQ`, tolerating the trailing query parameter. -/
theorem claim9_extract_video_id :
    (∀ url : List Char,
      (∃ w, extract_video_id url = Except.ok w ∧ w.length = 11 ∧
        w.all idChar = true) ∨
      extract_video_id url = Except.error "Invalid YouTube URL") ∧
    extract_video_id ("https://www.youtube.com/watch?v=dQw4w9WgXcQ&t=5s".toList) =
      Except.ok ("dQw4w9WgXcQ".toList) := by
  constructor
  · intro url
    unfold extract_video_id
    rcases h1 : searchP1 url with _ | w
    · rcases h2 : searchLit ("embed/".toList) url with _ | w
      · rcases h3 : searchLit ("youtu.be/".toList) url with _ | w
        · exact Or.inr rfl
        · exact Or.inl ⟨w, rfl, searchLit_ok h3⟩
      · exact Or.inl ⟨w, rfl, searchLit_ok h2⟩
    · exact Or.inl ⟨w, rfl, searchP1_ok h1⟩
  · rfl

/-- One caption cue as delivered by the external transcript source: text
plus a start time (`transcript_processor.py`; time values are embedded as
rationals). -/
structure TranscriptEntry where
  text : List Char
  start : Rat

/-- Python `str.strip()`: remove leading and trailing whitespace. -/
def stripW (s : List Char) : List Char :=
  ((s.dropWhile isSpaceChar).reverse.dropWhile isSpaceChar).reverse

/-- Does the text end with sentence-ending punctuation
(`transcript_processor.py` line 51)? -/
def endsSentence (s : List Char) : Bool :=
  match s.getLast? with
  | some c => c = '.' || c = '!' || c = '?'
  | none => false

/-- The entry loop of
`TranscriptProcessor.get_sentences_with_timestamps`
(`transcript_processor.py` lines 39-60): `cur` is `current_sentence`,
`st` is `current_start_time`; a sentence is emitted when a cue text ends
with `.`, `!` or `?`, and any remaining text is flushed at the end with
`current_start_time or 0`. -/
def sentencesLoop : List TranscriptEntry → List (List Char) → Option Rat →
    List (List Char × Rat)
  | [], cur, st =>
      if cur = [] then [] else [(joinSpace cur, st.getD 0)]
  | e :: es, cur, st =>
      if stripW e.text = [] then sentencesLoop es cur st
      else
        if endsSentence (stripW e.text) then
          (joinSpace (cur ++ [stripW e.text]),
            (st.getD e.start)) :: sentencesLoop es [] none
        else
          sentencesLoop es (cur ++ [stripW e.text]) (some (st.getD e.start))

/-- `TranscriptProcessor.get_sentences_with_timestamps`
(`transcript_processor.py` lines 28-65).  The `transcript` string
argument of the Python method is kept in the embedding; the method reads
only the class variable `TranscriptProcessor._last_transcript`, passed
here as `last_transcript`. -/
def get_sentences_with_timestamps (last_transcript : List TranscriptEntry)
    (transcript : List Char) : List (List Char × Rat) :=
  if last_transcript.isEmpty then []
  else sentencesLoop last_transcript [] none

/-- C10: `get_sentences_with_timestamps` ignores its transcript argument —
for every fixed value of the hidden `_last_transcript` state and all
argument strings `s1`, `s2`, the results coincide; the result is
determined solely by the hidden cross-call state. -/
theorem claim10_sentences_ignore_argument
    (last_transcript : List TranscriptEntry) (s1 s2 : List Char) :
    get_sentences_with_timestamps last_transcript s1 =
      get_sentences_with_timestamps last_transcript s2 := rfl

/-- Modelled from the spec: the Supabase `transcripts` table row (schema
not under `src/`), per the data model — `{ id, video_id (unique), title,
transcript, ai_summary (optional), created_at }`.  `id` and `created_at`
are generated by the store. -/
structure Row where
  id : Nat
  video_id : String
  title : String
  transcript : String
  ai_summary : Option String
  created_at : String
deriving DecidableEq

/-- Modelled from the spec: `Database.insert_transcript`
(`database.py` lines 42-54) issues a Supabase upsert of
`{video_id, title, transcript}`; the external store resolves it as
insert-or-update keyed by the unique `video_id` (spec §4.4).  The
store-generated id and timestamp for the insert branch are passed in. -/
def insert_transcript (store : List Row) (fresh_id : Nat) (now : String)
    (video_id title transcript : String) : List Row :=
  if store.any (fun r => r.video_id = video_id) then
    store.map (fun r =>
      if r.video_id = video_id then
        { r with title := title, transcript := transcript }
      else r)
  else
    store ++ [{ id := fresh_id, video_id := video_id, title := title,
                transcript := transcript, ai_summary := none,
                created_at := now }]

theorem countP_le_one_of_nodup (v : String) :
    ∀ store : List Row, (store.map Row.video_id).Nodup →
    store.countP (fun r => r.video_id = v) ≤ 1 := by
  intro store
  induction store with
  | nil => intro _; simp
  | cons r rest ih =>
      intro h
      rw [List.map_cons, List.nodup_cons] at h
      rw [List.countP_cons]
      by_cases hv : r.video_id = v
      · have hzero : rest.countP (fun r => r.video_id = v) = 0 := by
          rw [List.countP_eq_zero]
          intro a ha hav
          apply h.1
          have hav' : a.video_id = v := by simpa using hav
          rw [hv, ← hav']
          exact List.mem_map_of_mem Row.video_id ha
        simp [hzero, hv]
      · have := ih h.2
        simp [hv]
        omega

theorem insert_countP_eq_one (store : List Row) (i : Nat) (d v t x : String)
    (h : store.countP (fun r => r.video_id = v) ≤ 1) :
    (insert_transcript store i d v t x).countP (fun r => r.video_id = v) = 1 := by
  unfold insert_transcript
  by_cases hp : store.any (fun r => r.video_id = v) = true
  · rw [if_pos hp]
    have hmap : (store.map (fun r =>
        if r.video_id = v then { r with title := t, transcript := x } else r)).countP
          (fun r => r.video_id = v) =
        store.countP (fun r => r.video_id = v) := by
      rw [List.countP_map]
      apply List.countP_congr
      intro r _
      by_cases hv : r.video_id = v <;> simp [hv]
    rw [hmap]
    have hpos : 0 < store.countP (fun r => r.video_id = v) := by
      rw [List.countP_pos]
      simpa using List.any_eq_true.1 hp
    omega
  · rw [if_neg hp]
    have hzero : store.countP (fun r => r.video_id = v) = 0 := by
      rw [List.countP_eq_zero]
      intro a ha hav
      exact hp (List.any_eq_true.2 ⟨a, ha, hav⟩)
    rw [List.countP_append, hzero]
    simp

/-- C1: under the unique-`video_id` invariant, upserting the same
`video_id` twice leaves exactly one row for it, carrying the second
write's title and transcript; and whenever a `video_id` is already
present, `insert_transcript` never adds a row (the store size is
unchanged). -/
theorem claim1_insert_transcript_upsert (store : List Row)
    (i1 i2 : Nat) (d1 d2 v t1 x1 t2 x2 : String)
    (hnodup : (store.map Row.video_id).Nodup) :
    ((insert_transcript (insert_transcript store i1 d1 v t1 x1) i2 d2 v t2 x2).countP
      (fun r => r.video_id = v)) = 1 ∧
    (∀ r ∈ insert_transcript (insert_transcript store i1 d1 v t1 x1) i2 d2 v t2 x2,
      r.video_id = v → r.title = t2 ∧ r.transcript = x2) ∧
    (∀ (s : List Row) (i : Nat) (d t x : String),
      s.any (fun r => r.video_id = v) = true →
      (insert_transcript s i d v t x).length = s.length) := by
  have h1 : (insert_transcript store i1 d1 v t1 x1).countP
      (fun r => r.video_id = v) = 1 :=
    insert_countP_eq_one store i1 d1 v t1 x1 (countP_le_one_of_nodup v store hnodup)
  refine ⟨?_, ?_, ?_⟩
  · exact insert_countP_eq_one _ i2 d2 v t2 x2 (by omega)
  · have hany : (insert_transcript store i1 d1 v t1 x1).any
        (fun r => r.video_id = v) = true := by
      rw [List.any_eq_true]
      have hpos : 0 < (insert_transcript store i1 d1 v t1 x1).countP
          (fun r => r.video_id = v) := by omega
      simpa using List.countP_pos.1 hpos
    intro r hr hrv
    generalize hgen : insert_transcript store i1 d1 v t1 x1 = s1 at hany hr
    unfold insert_transcript at hr
    rw [if_pos hany] at hr
    rcases List.mem_map.1 hr with ⟨r0, _, rfl⟩
    by_cases hv0 : r0.video_id = v
    · simp [hv0]
    · rw [if_neg hv0] at hrv ⊢
      exact absurd hrv hv0
  · intro s i d t x hany
    unfold insert_transcript
    rw [if_pos hany, List.length_map]

/-- Witness for C1 at the empty store with concrete strings. -/
theorem claim1_witness :
    ((([] : List Row).map Row.video_id).Nodup) ∧
    (((insert_transcript (insert_transcript [] 1 "d1" "vid00000001" "T1" "X1")
        2 "d2" "vid00000001" "T2" "X2").countP
      (fun r => r.video_id = "vid00000001")) = 1 ∧
    (∀ r ∈ insert_transcript (insert_transcript [] 1 "d1" "vid00000001" "T1" "X1")
        2 "d2" "vid00000001" "T2" "X2",
      r.video_id = "vid00000001" → r.title = "T2" ∧ r.transcript = "X2") ∧
    (∀ (s : List Row) (i : Nat) (d t x : String),
      s.any (fun r => r.video_id = "vid00000001") = true →
      (insert_transcript s i d "vid00000001" t x).length = s.length)) :=
  ⟨by simp, claim1_insert_transcript_upsert [] 1 2 "d1" "d2" "vid00000001"
    "T1" "X1" "T2" "X2" (by simp)⟩

/-- Lower-case a string's characters (`ilike` case folding, Python
`str.lower()`). -/
def toLowerStr (s : List Char) : List Char :=
  s.map Char.toLower

/-- Case-sensitive substring test over character lists. -/
def containsSub : List Char → List Char → Bool
  | [], pat => pat.isEmpty
  | c :: rest, pat => startsWithL (c :: rest) pat || containsSub rest pat

/-- `Database.search_transcripts` (`database.py` lines 175-183): a
Supabase `ilike '%query%'` filter on the `transcript` column — rows whose
transcript contains the query as a case-insensitive substring, in store
order.  No relevance score and no highlight are computed; the full rows
are returned. -/
def search_transcripts (store : List Row) (query : String) : List Row :=
  store.filter (fun r =>
    containsSub (toLowerStr r.transcript.toList) (toLowerStr query.toList))

/-- Option-to-string used during export; `str(None)` is `"None"`. -/
def pyStrOpt : Option String → String
  | none => "None"
  | some s => s

/-- A stored row as the Python dict returned by `select('*')`: field
name to stringified value, in column order. -/
def rowToDict (r : Row) : List (String × String) :=
  [("id", toString r.id), ("video_id", r.video_id), ("title", r.title),
   ("transcript", r.transcript), ("ai_summary", pyStrOpt r.ai_summary),
   ("created_at", r.created_at)]

/-- The search command handler (`main.py` lines 274-277) renders
`result['highlight']` for each returned row; a missing key is a Python
`KeyError`. -/
def render_search_result (r : Row) : Except String String :=
  match (rowToDict r).lookup "highlight" with
  | some h => Except.ok h
  | none => Except.error "KeyError: highlight"

/-- A concrete stored transcript used to exercise the search path. -/
def searchExampleRow : Row :=
  { id := 1, video_id := "dQw4w9WgXcQ", title := "Sermon",
    transcript := "Grace is central. Grace saves. Amen.",
    ai_summary := none, created_at := "2024-01-01T00:00:00" }

/-- C4 (code bug evidence): on a store holding one matching transcript,
the query `grace` does return the row (case-insensitive substring
filter), but the returned record carries no `highlight` field, so the
search handler's access to `result['highlight']` fails with a KeyError;
no relevance score is computed. -/
theorem claim4_search_no_highlight :
    search_transcripts [searchExampleRow] "grace" = [searchExampleRow] ∧
    (rowToDict searchExampleRow).lookup "highlight" = none ∧
    render_search_result searchExampleRow =
      Except.error "KeyError: highlight" := by
  exact ⟨by decide, by decide, rfl⟩

/-- Python `str.strip()` on a `String`. -/
def pyStrip (s : String) : String :=
  String.mk (stripW s.data)

/-- Outcome of `Database.__init__` together with the number of
connection attempts it made. -/
structure InitResult where
  outcome : Except String Unit
  attempts_used : Nat

/-- `Database.__init__` (`database.py` lines 9-40): read and strip the
two credentials, raise if either is empty, then create the client and
run one test query; any failure is re-raised immediately.  `conn i`
tells whether the store's `i`-th connection attempt would succeed; the
code consults only `conn 0`. -/
def database_init (url key : String) (conn : Nat → Bool) : InitResult :=
  if pyStrip url = "" then
    { outcome := Except.error "Missing NEXT_PUBLIC_SUPABASE_URL",
      attempts_used := 0 }
  else if pyStrip key = "" then
    { outcome := Except.error "Missing NEXT_PUBLIC_SUPABASE_ANON_KEY",
      attempts_used := 0 }
  else if conn 0 then
    { outcome := Except.ok (), attempts_used := 1 }
  else
    { outcome := Except.error "Error initializing Supabase client",
      attempts_used := 1 }

/-- C5 counterexample: with valid credentials and a connection that
fails only on the very first attempt (every retry would succeed — fewer
failures than any 3-5 retry budget), initialization nevertheless fails:
there is no retry loop. -/
theorem claim5_counterexample :
    (database_init "https://example.supabase.co" "anonkey"
      (fun i => decide (0 < i))).outcome =
      Except.error "Error initializing Supabase client" ∧
    (fun i => decide (0 < i)) 1 = true ∧
    (fun i => decide (0 < i)) 2 = true := by
  exact ⟨rfl, by decide, by decide⟩

/-- C5 amended: initialization makes at most one connection attempt and
succeeds exactly when both stripped credentials are non-empty and the
first attempt succeeds; any connection failure is fatal immediately,
with no retry or backoff. -/
theorem claim5_amended (url key : String) (conn : Nat → Bool) :
    (database_init url key conn).attempts_used ≤ 1 ∧
    ((database_init url key conn).outcome = Except.ok () ↔
      pyStrip url ≠ "" ∧ pyStrip key ≠ "" ∧ conn 0 = true) := by
  unfold database_init
  by_cases hu : pyStrip url = ""
  · simp [hu]
  · by_cases hk : pyStrip key = ""
    · simp [hu, hk]
    · by_cases hc : conn 0 = true
      · simp [hu, hk, hc]
      · simp [hu, hk, hc]

/-- Column order of the exported dict, per the row returned by
`select('*')`: `csv.DictWriter` is created with
`fieldnames=transcripts[0].keys()` (`database.py` line 195). -/
def rowKeys : List String :=
  ["id", "video_id", "title", "transcript", "ai_summary", "created_at"]

/-- Stringified values of a row in column order
(`{k: str(v) for k, v in t.items()}`, `database.py` line 198). -/
def rowValues (r : Row) : List String :=
  [toString r.id, r.video_id, r.title, r.transcript,
   pyStrOpt r.ai_summary, r.created_at]

/-- Does a CSV field require quoting under the default QUOTE_MINIMAL
dialect (delimiter, quote char or line break present)? -/
def needsQuote (s : String) : Bool :=
  s.toList.any (fun c => c = ',' || c = '"' || c = '\n' || c = '\r')

/-- Double every quote character (CSV escaping). -/
def doubleQuotes : List Char → List Char
  | [] => []
  | c :: cs =>
    if c = '"' then '"' :: '"' :: doubleQuotes cs
    else c :: doubleQuotes cs

/-- One CSV field, quoted only when needed (QUOTE_MINIMAL). -/
def csvField (s : String) : List Char :=
  if needsQuote s then '"' :: (doubleQuotes s.toList ++ ['"'])
  else s.toList

/-- Join rendered fields with commas. -/
def joinComma : List (List Char) → List Char
  | [] => []
  | [f] => f
  | f :: fs => f ++ ',' :: joinComma fs

/-- One CSV record for a list of field values. -/
def csvLine (fields : List String) : List Char :=
  joinComma (fields.map csvField)

/-- The lines written by `Database.export_transcripts(format="csv")`
(`database.py` lines 192-199): nothing for an empty store, else a header
row of the dict keys followed by one row per transcript. -/
def csvLines (store : List Row) : List (List Char) :=
  if store.isEmpty then []
  else csvLine rowKeys :: store.map (fun r => csvLine (rowValues r))

/-- The full exported CSV string: each record is terminated by the
`csv` module's default `\r\n`. -/
def export_transcripts_csv (store : List Row) : List Char :=
  (csvLines store).foldr (fun l acc => l ++ '\r' :: '\n' :: acc) []

theorem csvField_of_plain {s : String} (h : needsQuote s = false) :
    csvField s = s.toList ∧ (s.toList.count ',') = 0 := by
  refine ⟨by rw [csvField, if_neg (by simp [h])], ?_⟩
  rw [List.count_eq_zero]
  intro hmem
  rw [needsQuote] at h
  have : s.toList.any (fun c => c = ',' || c = '"' || c = '\n' || c = '\r') = true :=
    List.any_eq_true.2 ⟨',', hmem, by simp⟩
  rw [h] at this
  exact absurd this (by simp)

theorem joinComma_count (fs : List (List Char))
    (h : ∀ f ∈ fs, f.count ',' = 0) :
    (joinComma fs).count ',' = fs.length - 1 := by
  induction fs with
  | nil => simp [joinComma]
  | cons f fs ih =>
      cases fs with
      | nil => simpa [joinComma] using h f (List.mem_cons_self f [])
      | cons g gs =>
          have hjoin : joinComma (f :: g :: gs) = f ++ ',' :: joinComma (g :: gs) := rfl
          rw [hjoin, List.count_append, List.count_cons_self,
            h f (List.mem_cons_self f (g :: gs)),
            ih (fun u hu => h u (List.mem_cons_of_mem f hu))]
          simp [List.length_cons]

theorem csvLine_count (fields : List String)
    (h : ∀ v ∈ fields, needsQuote v = false) :
    (csvLine fields).count ',' = fields.length - 1 := by
  rw [csvLine, joinComma_count]
  · rw [List.length_map]
  · intro f hf
    rcases List.mem_map.1 hf with ⟨v, hv, rfl⟩
    rcases csvField_of_plain (h v hv) with ⟨heq, hcnt⟩
    rw [heq]
    exact hcnt

/-- C6 amended: exporting a store of exactly two transcripts whose
stringified values need no CSV quoting yields a header line plus exactly
two data lines, each line holding one field per stored column — six
fields (id, video_id, title, transcript, ai_summary, created_at), which
include the four claimed ones — not four. -/
theorem claim6_amended (r1 r2 : Row)
    (h1 : ∀ v ∈ rowValues r1, needsQuote v = false)
    (h2 : ∀ v ∈ rowValues r2, needsQuote v = false) :
    csvLines [r1, r2] =
      [csvLine rowKeys, csvLine (rowValues r1), csvLine (rowValues r2)] ∧
    (csvLines [r1, r2]).length = 3 ∧
    (∀ l ∈ csvLines [r1, r2], l.count ',' = 5) ∧
    csvLine rowKeys = "id,video_id,title,transcript,ai_summary,created_at".toList := by
  refine ⟨by rw [csvLines]; rfl, by rw [csvLines]; rfl, ?_, by decide⟩
  intro l hl
  rw [csvLines] at hl
  simp only [List.isEmpty_cons, if_false, Bool.false_eq_true, List.map_cons,
    List.map_nil] at hl
  rcases List.mem_cons.1 hl with rfl | hl
  · decide
  · rcases List.mem_cons.1 hl with rfl | hl
    · rw [csvLine_count (rowValues r1) h1]; rfl
    · rcases List.mem_cons.1 hl with rfl | hl
      · rw [csvLine_count (rowValues r2) h2]; rfl
      · exact absurd hl (by simp)

/-- Two concrete stored transcripts with plain (unquoted) values. -/
def exportExampleRow1 : Row :=
  { id := 1, video_id := "dQw4w9WgXcQ", title := "Sermon One",
    transcript := "Grace saves.", ai_summary := none,
    created_at := "2024-01-01T00:00:00" }

/-- Second concrete stored transcript. -/
def exportExampleRow2 : Row :=
  { id := 2, video_id := "abcdefghijk", title := "Sermon Two",
    transcript := "Amen.", ai_summary := some "short",
    created_at := "2024-01-02T00:00:00" }

/-- C6 counterexample: on a two-row store the CSV export has a header
plus two data lines as claimed, but every line carries 6
comma-separated fields (5 commas), not 4 (3 commas), and the header is
the six column names, not `video_id,title,transcript,created_at`. -/
theorem claim6_counterexample :
    (csvLines [exportExampleRow1, exportExampleRow2]).length = 3 ∧
    (csvLines [exportExampleRow1, exportExampleRow2]).map
      (fun l => l.count ',') = [5, 5, 5] ∧
    (csvLines [exportExampleRow1, exportExampleRow2]).map
      (fun l => l.count ',') ≠ [3, 3, 3] ∧
    csvLine rowKeys ≠ "video_id,title,transcript,created_at".toList := by
  exact ⟨by decide, by decide, by decide, by decide⟩

/-- Witness for C6 at the two concrete rows. -/
theorem claim6_witness :
    ((∀ v ∈ rowValues exportExampleRow1, needsQuote v = false) ∧
     (∀ v ∈ rowValues exportExampleRow2, needsQuote v = false)) ∧
    (csvLines [exportExampleRow1, exportExampleRow2] =
      [csvLine rowKeys, csvLine (rowValues exportExampleRow1),
       csvLine (rowValues exportExampleRow2)] ∧
    (csvLines [exportExampleRow1, exportExampleRow2]).length = 3 ∧
    (∀ l ∈ csvLines [exportExampleRow1, exportExampleRow2], l.count ',' = 5) ∧
    csvLine rowKeys = "id,video_id,title,transcript,ai_summary,created_at".toList) :=
  ⟨⟨by decide, by decide⟩,
    claim6_amended exportExampleRow1 exportExampleRow2 (by decide) (by decide)⟩

/-- A playlist entry together with the collaborator outcomes its
processing would meet: whether a transcript is available and whether the
store upsert succeeds. -/
structure PlaylistVideo where
  video_id : String
  title : String
  has_transcript : Bool
  insert_ok : Bool
deriving DecidableEq

/-- Streamlit's `st.stop()` raises `StopException`, which in the
Streamlit generation this app requires (`st.rerun` needs >= 1.27)
derives from `BaseException`, so user-level `except Exception` blocks
cannot intercept it; it carries no message and halts the script run
immediately. -/
structure StopException
deriving DecidableEq

/-- `process_single_video` (`main.py` lines 19-68) as invoked by the
playlist loop (title supplied, `no_redirect=True`): a missing transcript
(line 25) or a failed store (line 65) calls `st.stop()`, and the
enclosing handler (line 66-68) also ends in `st.stop()`; the AI-summary
and category steps catch their own exceptions and cannot fail the
video.  The call therefore either completes or raises `StopException`. -/
def process_single_video (v : PlaylistVideo) : Except StopException Unit :=
  if !v.has_transcript then Except.error ⟨⟩
  else if !v.insert_ok then Except.error ⟨⟩
  else Except.ok ()

/-- The observable end state of one playlist run (`main.py` lines
231-251): either the loop finishes all videos and reaches the summary,
or an uncaught `StopException` halts the whole script run mid-loop. -/
inductive RunOutcome where
  | completed (processed : Nat) (errors : List String)
  | halted (processed : Nat)
deriving DecidableEq

/-- The playlist processing loop (`main.py` lines 236-243): it keeps a
single `processed_count` and an `errors` message list.  Its
`except Exception` (line 241) would record an ordinary exception, but
the only exception `process_single_video` lets escape is
`StopException`, which derives from `BaseException` and so escapes
`except Exception` too: the script run aborts, `errors` is never
extended, and the remaining videos are not attempted.  The `batch_size`
slider value is never consulted by the loop. -/
def playlistLoop (processed : Nat) (errors : List String) :
    List PlaylistVideo → RunOutcome
  | [] => RunOutcome.completed processed errors
  | v :: vs =>
    match process_single_video v with
    | Except.ok _ => playlistLoop (processed + 1) errors vs
    | Except.error _ => RunOutcome.halted processed

/-- One playlist run over the new videos, starting from
`processed_count = 0` and `errors = []` (`main.py` lines 233-234). -/
def playlist_process (videos : List PlaylistVideo) : RunOutcome :=
  playlistLoop 0 [] videos

theorem process_single_video_ok (v : PlaylistVideo) :
    process_single_video v = Except.ok () ↔
      (v.has_transcript && v.insert_ok) = true := by
  cases hb : v.has_transcript <;> cases hc : v.insert_ok <;>
    simp [process_single_video, hb, hc]

theorem playlistLoop_spec (videos : List PlaylistVideo) :
    ∀ (p : Nat) (es : List String),
    playlistLoop p es videos =
      if (videos.takeWhile (fun v => v.has_transcript && v.insert_ok)).length
          = videos.length then
        RunOutcome.completed (p + videos.length) es
      else
        RunOutcome.halted
          (p + (videos.takeWhile
            (fun v => v.has_transcript && v.insert_ok)).length) := by
  induction videos with
  | nil => intro p es; simp [playlistLoop]
  | cons v vs ih =>
      intro p es
      by_cases hv : (v.has_transcript && v.insert_ok) = true
      · have hok := (process_single_video_ok v).2 hv
        rw [playlistLoop, hok]
        rw [ih (p + 1) es]
        simp only [List.takeWhile_cons, hv, if_true, List.length_cons]
        by_cases h : (vs.takeWhile
            (fun v => v.has_transcript && v.insert_ok)).length = vs.length
        · rw [if_pos h, if_pos (by omega)]
          have hp : p + 1 + vs.length = p + (vs.length + 1) := by omega
          rw [hp]
        · rw [if_neg h, if_neg (by omega)]
          have hp : p + 1 + (vs.takeWhile
              (fun v => v.has_transcript && v.insert_ok)).length =
              p + ((vs.takeWhile
                (fun v => v.has_transcript && v.insert_ok)).length + 1) := by
            omega
          rw [hp]
      · have hvf : (v.has_transcript && v.insert_ok) = false :=
          Bool.of_not_eq_true hv
        rcases hpe : process_single_video v with e | u
        · rw [playlistLoop, hpe]
          simp only [List.takeWhile_cons, hvf, Bool.false_eq_true, if_false,
            List.length_nil, List.length_cons]
          rw [if_neg (by omega)]
          rfl
        · cases u
          exact absurd ((process_single_video_ok v).1 hpe) hv

/-- C3 amended: the playlist loop keeps only a processed count and an
error-message list (no `skipped` counter, no `remaining` value, and the
configured `batch_size` is never consulted).  A video whose transcript
fetch or store fails triggers `st.stop()`, whose `StopException`
derives from `BaseException` and escapes the loop's `except Exception`:
the run completes — with every video processed and an empty error
list — only when all videos succeed, and otherwise halts at the first
failing video having processed exactly the initial streak of
successes, recording nothing and leaving the rest unattempted. -/
theorem claim3_amended (videos : List PlaylistVideo) :
    playlist_process videos =
      if (videos.takeWhile (fun v => v.has_transcript && v.insert_ok)).length
          = videos.length then
        RunOutcome.completed videos.length []
      else
        RunOutcome.halted
          (videos.takeWhile (fun v => v.has_transcript && v.insert_ok)).length := by
  have h := playlistLoop_spec videos 0 []
  simpa [playlist_process] using h

/-- The spec's example playlist: 7 videos, where exactly video #3 has no
captions and every other step succeeds. -/
def exampleVideos : List PlaylistVideo :=
  [⟨"vid00000001", "Video 1", true, true⟩,
   ⟨"vid00000002", "Video 2", true, true⟩,
   ⟨"vid00000003", "Video 3", false, true⟩,
   ⟨"vid00000004", "Video 4", true, true⟩,
   ⟨"vid00000005", "Video 5", true, true⟩,
   ⟨"vid00000006", "Video 6", true, true⟩,
   ⟨"vid00000007", "Video 7", true, true⟩]

/-- C3 counterexample: on the spec's 7-video example the captionless
video's `st.stop()` aborts the whole run after videos 1 and 2 — the
loop ends halted with `processed = 2`, no error recorded and videos 4-7
never attempted — so the claimed completed run with `processed = 6`,
`errors = 0` (and a `skipped = 1` tally that does not exist) is not the
program's behavior. -/
theorem claim3_counterexample :
    playlist_process exampleVideos = RunOutcome.halted 2 ∧
    playlist_process exampleVideos ≠ RunOutcome.completed 6 [] := by
  exact ⟨by decide, by decide⟩

end SermonSearch
